import Mathlib

/-!
Verification development for the docweaver repository.

This file gives a shallow embedding of the parts of the code that the
properties below are about:

* the per-file edit applier of `make_changes`
  (src/docweaver/pipeline.py, lines 502-558);
* the document catalog (src/docweaver/catalog.py): the `DocCatalog`
  model, `save`/`load`, `get_docs_to_update`, `get_docs_to_remove`,
  and the catalog-updating loop of `update_catalog`
  (src/docweaver/pipeline.py, lines 977-994);
* the reference scanner `parse_doc_refs`
  (src/docweaver/agents.py, lines 217-255).

Python strings are embedded as Lean `String`s (text is treated as a
sequence of characters; the claims involved never depend on encoding),
Python `int` as `Int`, Python lists as Lean lists, and the filesystem
as an explicit association list from path to content.
-/

namespace DocWeaver

/-- The characters Python's `str.rstrip()` (no argument) strips: ASCII
whitespace.  (Python also strips some rarer Unicode whitespace; the
documents involved are ASCII-newline-structured text, so we embed the
ASCII set.) -/
def pyWs (c : Char) : Bool :=
  c = ' ' || c = '\t' || c = '\n' || c = '\r' || c = Char.ofNat 11 || c = Char.ofNat 12

/-- Python `str.rstrip()`: remove trailing whitespace characters. -/
def rstrip (s : String) : String :=
  String.mk ((s.data.reverse.dropWhile pyWs).reverse)

/-- Worker for `splitlines`: `acc` holds the characters of the current
line in reverse. -/
def splitlinesAux : List Char → List Char → List String
  | acc, [] => if acc.isEmpty then [] else [String.mk acc.reverse]
  | acc, '\r' :: '\n' :: rest => String.mk acc.reverse :: splitlinesAux [] rest
  | acc, '\n' :: rest => String.mk acc.reverse :: splitlinesAux [] rest
  | acc, '\r' :: rest => String.mk acc.reverse :: splitlinesAux [] rest
  | acc, c :: rest => splitlinesAux (c :: acc) rest

/-- Python `str.splitlines()` for the universal line boundaries
`\n`, `\r\n` and `\r` (the exotic Unicode boundaries Python also
recognises do not occur in the repository's data).  A trailing line
boundary does not produce a final empty line, and the empty string
yields no lines, exactly as in Python. -/
def splitlines (s : String) : List String :=
  splitlinesAux [] s.data

/-- `"\n".join(...)`. -/
def joinNL (lines : List String) : String :=
  String.intercalate "\n" lines

/-- The `EditType` enum of src/docweaver/agents.py (lines 184-189). -/
inductive EditType where
  | add_new
  | update_outdated
  | enhance
  | delete_redundant
deriving DecidableEq, BEq, Repr

/-- The `DocEdit` model of src/docweaver/agents.py (lines 192-200): a
single line-addressed edit. `start_line` and `end_line` are 1-indexed
and inclusive. -/
structure DocEdit where
  comment : String
  edit_type : EditType
  justification : String
  start_line : Int
  end_line : Int
  replacement_txt : String
deriving DecidableEq, BEq, Repr

/-- `edit_type in ["add_new", "enhance"]` (pipeline.py line 534). -/
def isInsertion (e : DocEdit) : Bool :=
  decide (e.edit_type = EditType.add_new) || decide (e.edit_type = EditType.enhance)

/-- `start_idx = start_line - 1` (pipeline.py line 526). -/
def startIdx (e : DocEdit) : Int :=
  e.start_line - 1

/-- The computed end index: `start_idx` for insertions, `end_line`
otherwise (pipeline.py lines 536-539). -/
def endIdx (e : DocEdit) : Int :=
  if isInsertion e then startIdx e else e.end_line

/-- The in-range test of pipeline.py lines 542-547: an edit is applied
unless `start_idx < 0 or start_idx > len(lines) or end_idx < start_idx
or end_idx > len(lines)`. -/
def isValidEdit (lines : List String) (e : DocEdit) : Bool :=
  !(startIdx e < 0 || startIdx e > (lines.length : Int) ||
    endIdx e < startIdx e || endIdx e > (lines.length : Int))

/-- One step of the edit loop of pipeline.py lines 515-555: an invalid
edit is skipped (`continue`), otherwise
`lines[start_idx:end_idx] = replacement_txt.splitlines()`. -/
def applyEdit (lines : List String) (e : DocEdit) : List String :=
  if isValidEdit lines e then
    lines.take (startIdx e).toNat ++ splitlines e.replacement_txt
      ++ lines.drop (endIdx e).toNat
  else
    lines

/-- Stable insert for a descending sort by `start_line`: an element
moves past exactly the elements with a strictly larger key, so elements
with equal keys keep their original relative order. -/
def insertDesc (e : DocEdit) : List DocEdit → List DocEdit
  | [] => [e]
  | x :: xs =>
    if e.start_line < x.start_line then x :: insertDesc e xs else e :: x :: xs

/-- `edits.sort(key=lambda e: e["start_line"], reverse=True)`
(pipeline.py line 513): Python's sort is stable, and a stable sort for
a given key order is extensionally unique, so it is embedded as a
stable insertion sort, descending by `start_line`. -/
def sortEditsDesc (edits : List DocEdit) : List DocEdit :=
  edits.foldr insertDesc []

/-- The edit loop of pipeline.py lines 513-555 for one file: sort the
edits descending by `start_line`, then apply each in turn. -/
def applyEdits (lines : List String) (edits : List DocEdit) : List String :=
  (sortEditsDesc edits).foldl applyEdit lines

/-- The whole per-file processing of pipeline.py lines 509-558: split
the current content into lines, apply the (sorted) edits, strip
trailing whitespace from every line, and rejoin with `"\n"`.  The
result is what `make_changes` stores back into `revised_contents`. -/
def makeChangesFile (content : String) (edits : List DocEdit) : String :=
  joinNL ((applyEdits (splitlines content) edits).map rstrip)



/-! ### Lemmas about the stable descending sort -/

theorem insertDesc_perm (e : DocEdit) (l : List DocEdit) :
    (insertDesc e l).Perm (e :: l) := by
  induction l with
  | nil => exact List.Perm.refl _
  | cons x xs ih =>
    unfold insertDesc
    split
    · exact (ih.cons x).trans (List.Perm.swap e x xs)
    · exact List.Perm.refl _

theorem sortEditsDesc_perm (l : List DocEdit) :
    (sortEditsDesc l).Perm l := by
  induction l with
  | nil => exact List.Perm.refl _
  | cons x xs ih =>
    exact (insertDesc_perm x (sortEditsDesc xs)).trans (ih.cons x)

theorem mem_sortEditsDesc {e : DocEdit} {l : List DocEdit} :
    e ∈ sortEditsDesc l ↔ e ∈ l :=
  (sortEditsDesc_perm l).mem_iff

theorem pairwise_insertDesc {e : DocEdit} {l : List DocEdit}
    (h : l.Pairwise (fun a b => b.start_line ≤ a.start_line)) :
    (insertDesc e l).Pairwise (fun a b => b.start_line ≤ a.start_line) := by
  induction l with
  | nil => simp [insertDesc]
  | cons x xs ih =>
    rcases List.pairwise_cons.mp h with ⟨hx, hxs⟩
    unfold insertDesc
    split
    · rename_i hlt
      refine List.pairwise_cons.mpr ⟨?_, ih hxs⟩
      intro y hy
      rcases List.mem_cons.mp ((insertDesc_perm e xs).mem_iff.mp hy) with rfl | hy
      · omega
      · exact hx y hy
    · rename_i hge
      refine List.pairwise_cons.mpr ⟨?_, List.pairwise_cons.mpr ⟨hx, hxs⟩⟩
      intro y hy
      rcases List.mem_cons.mp hy with rfl | hy
      · omega
      · have := hx y hy; omega

theorem pairwise_sortEditsDesc (l : List DocEdit) :
    (sortEditsDesc l).Pairwise (fun a b => b.start_line ≤ a.start_line) := by
  induction l with
  | nil => simp [sortEditsDesc]
  | cons x xs ih => exact pairwise_insertDesc ih

/-! ### Single-edit behaviour -/

/-- C1: applying a replacement edit (`update_outdated` or
`delete_redundant`) whose 1-indexed inclusive range `[start_line,
end_line]` lies within the file replaces exactly the lines
`start_line..end_line` by the lines of `replacement_txt`, and leaves
the lines before `start_line` and after `end_line` unchanged. -/
theorem applyEdit_replacement (lines : List String) (e : DocEdit)
    (ht : e.edit_type = EditType.update_outdated ∨
          e.edit_type = EditType.delete_redundant)
    (h1 : 1 ≤ e.start_line) (h2 : e.start_line ≤ e.end_line)
    (h3 : e.end_line ≤ (lines.length : Int)) :
    applyEdit lines e =
      lines.take (e.start_line - 1).toNat ++ splitlines e.replacement_txt
        ++ lines.drop e.end_line.toNat := by
  have hins : isInsertion e = false := by
    rcases ht with h | h <;> simp [isInsertion, h]
  have hvalid : isValidEdit lines e = true := by
    simp only [isValidEdit, startIdx, endIdx, hins, if_false,
      Bool.not_eq_true', Bool.or_eq_false_iff, decide_eq_false_iff_not,
      not_lt]
    refine ⟨⟨⟨?_, ?_⟩, ?_⟩, ?_⟩ <;> omega
  simp [applyEdit, hvalid, startIdx, endIdx, hins]

/-- Witness for C1, on the 5-line fixture from the specification, both
at the line-list level and end to end through `makeChangesFile`. -/
theorem applyEdit_replacement_witness :
    applyEdit ["L1", "L2", "L3", "L4", "L5"]
        ⟨"c", EditType.update_outdated, "j", 2, 3, "X\nY\nZ"⟩ =
      ["L1", "X", "Y", "Z", "L4", "L5"] ∧
    makeChangesFile "L1\nL2\nL3\nL4\nL5"
        [⟨"c", EditType.update_outdated, "j", 2, 3, "X\nY\nZ"⟩] =
      "L1\nX\nY\nZ\nL4\nL5" :=
  ⟨(applyEdit_replacement ["L1", "L2", "L3", "L4", "L5"]
      ⟨"c", EditType.update_outdated, "j", 2, 3, "X\nY\nZ"⟩
      (Or.inl rfl) (by decide) (by decide) (by decide)).trans (by decide),
   by decide⟩

/-- C2: applying an insertion edit (`add_new` or `enhance`, with
`start_line = end_line` in range and a non-empty replacement) splices
the replacement lines in before `start_line` without removing any
original line, and the line count grows by exactly the replacement's
line count. -/
theorem applyEdit_insertion (lines : List String) (e : DocEdit)
    (ht : e.edit_type = EditType.add_new ∨ e.edit_type = EditType.enhance)
    (heq : e.start_line = e.end_line)
    (h1 : 1 ≤ e.start_line) (h2 : e.start_line ≤ (lines.length : Int) + 1)
    (hr : e.replacement_txt ≠ "") :
    applyEdit lines e =
      lines.take (e.start_line - 1).toNat ++ splitlines e.replacement_txt
        ++ lines.drop (e.start_line - 1).toNat ∧
    (applyEdit lines e).length =
      lines.length + (splitlines e.replacement_txt).length := by
  have hins : isInsertion e = true := by
    rcases ht with h | h <;> simp [isInsertion, h]
  have hvalid : isValidEdit lines e = true := by
    simp only [isValidEdit, startIdx, endIdx, hins, if_true,
      Bool.not_eq_true', Bool.or_eq_false_iff, decide_eq_false_iff_not,
      not_lt]
    refine ⟨⟨⟨?_, ?_⟩, ?_⟩, ?_⟩ <;> omega
  have happ : applyEdit lines e =
      lines.take (e.start_line - 1).toNat ++ splitlines e.replacement_txt
        ++ lines.drop (e.start_line - 1).toNat := by
    simp [applyEdit, hvalid, startIdx, endIdx, hins]
  refine ⟨happ, ?_⟩
  rw [happ]
  simp only [List.length_append, List.length_take, List.length_drop]
  omega

/-- Witness for C2, on the 5-line fixture from the specification, both
at the line-list level and end to end through `makeChangesFile`. -/
theorem applyEdit_insertion_witness :
    applyEdit ["L1", "L2", "L3", "L4", "L5"]
        ⟨"c", EditType.add_new, "j", 3, 3, "NEW"⟩ =
      ["L1", "L2", "NEW", "L3", "L4", "L5"] ∧
    makeChangesFile "L1\nL2\nL3\nL4\nL5"
        [⟨"c", EditType.add_new, "j", 3, 3, "NEW"⟩] =
      "L1\nL2\nNEW\nL3\nL4\nL5" :=
  ⟨((applyEdit_insertion ["L1", "L2", "L3", "L4", "L5"]
      ⟨"c", EditType.add_new, "j", 3, 3, "NEW"⟩
      (Or.inl rfl) rfl (by decide) (by decide) (by decide)).1).trans
      (by decide),
   by decide⟩

/-- C4: an edit whose computed indices fall outside `[0, line_count]`
or whose end index precedes its start index is skipped: it leaves the
line list exactly as it was, and the remaining edits of the batch are
still processed (the fold simply moves on). The embedding is a total
function, mirroring that the code path raises nothing. -/
theorem applyEdit_invalid_skipped (lines : List String) (e : DocEdit)
    (rest : List DocEdit) (h : isValidEdit lines e = false) :
    applyEdit lines e = lines ∧
    List.foldl applyEdit lines (e :: rest) = List.foldl applyEdit lines rest := by
  have h1 : applyEdit lines e = lines := by simp [applyEdit, h]
  exact ⟨h1, by simp [List.foldl_cons, h1]⟩

/-- Witness for C4: an inverted range (start 4, end 2) on a 3-line
file is skipped, and a following valid edit is still applied. -/
theorem applyEdit_invalid_skipped_witness :
    isValidEdit ["a", "b", "c"] ⟨"c", EditType.update_outdated, "j", 4, 2, "Z"⟩ = false ∧
    applyEdit ["a", "b", "c"] ⟨"c", EditType.update_outdated, "j", 4, 2, "Z"⟩ = ["a", "b", "c"] ∧
    List.foldl applyEdit ["a", "b", "c"]
        [⟨"c", EditType.update_outdated, "j", 4, 2, "Z"⟩,
         ⟨"c", EditType.update_outdated, "j", 1, 1, "A"⟩] =
      ["A", "b", "c"] :=
  ⟨by decide,
   (applyEdit_invalid_skipped ["a", "b", "c"]
      ⟨"c", EditType.update_outdated, "j", 4, 2, "Z"⟩
      [⟨"c", EditType.update_outdated, "j", 1, 1, "A"⟩] (by decide)).1,
   ((applyEdit_invalid_skipped ["a", "b", "c"]
      ⟨"c", EditType.update_outdated, "j", 4, 2, "Z"⟩
      [⟨"c", EditType.update_outdated, "j", 1, 1, "A"⟩] (by decide)).2).trans
     (by decide)⟩

/-- C10: for an insertion edit (`add_new` or `enhance`) the result is
independent of `end_line`: the computed deletion window is forced to
the empty window at `start_line - 1`, and `end_line` enters the
computation nowhere else, so any `end_line` value gives the same
result as `end_line = start_line`. -/
theorem applyEdit_insertion_ignores_end_line (lines : List String)
    (e : DocEdit) (v : Int)
    (ht : e.edit_type = EditType.add_new ∨ e.edit_type = EditType.enhance) :
    applyEdit lines { e with end_line := v } =
      applyEdit lines { e with end_line := e.start_line } := by
  rcases ht with h | h <;>
    simp [applyEdit, isValidEdit, startIdx, endIdx, isInsertion, h]

/-- Witness for C10: inserting with a wild `end_line = 99` equals
inserting with `end_line = start_line`. -/
theorem applyEdit_insertion_ignores_end_line_witness :
    applyEdit ["a", "b"] ⟨"c", EditType.enhance, "j", 2, 99, "N"⟩ =
      applyEdit ["a", "b"] ⟨"c", EditType.enhance, "j", 2, 2, "N"⟩ ∧
    applyEdit ["a", "b"] ⟨"c", EditType.enhance, "j", 2, 99, "N"⟩ =
      ["a", "N", "b"] :=
  ⟨applyEdit_insertion_ignores_end_line ["a", "b"]
      ⟨"c", EditType.enhance, "j", 2, 99, "N"⟩ 99 (Or.inr rfl),
   by decide⟩

/-- C9: whenever the applier processes the group of edits addressed to
a file — in particular when every one of those edits is invalid and
skipped — the stored revised content is the lines of the (possibly
edited) content each stripped of trailing whitespace and joined with
`"\n"`; with all edits skipped this is exactly the original lines,
rstripped and rejoined, which can differ from the original content
(trailing newline and per-line trailing whitespace are dropped). -/
theorem makeChangesFile_all_skipped (content : String) (edits : List DocEdit)
    (h : ∀ e ∈ edits, isValidEdit (splitlines content) e = false) :
    makeChangesFile content edits = joinNL ((splitlines content).map rstrip) := by
  have hfold : ∀ L : List DocEdit,
      (∀ e ∈ L, isValidEdit (splitlines content) e = false) →
      List.foldl applyEdit (splitlines content) L = splitlines content := by
    intro L
    induction L with
    | nil => intro _; rfl
    | cons e L ih =>
      intro hL
      have he : applyEdit (splitlines content) e = splitlines content := by
        simp [applyEdit, hL e (by simp)]
      rw [List.foldl_cons, he]
      exact ih fun x hx => hL x (by simp [hx])
  unfold makeChangesFile applyEdits
  rw [hfold (sortEditsDesc edits)
    fun e he => h e (mem_sortEditsDesc.mp he)]

/-- Witness for C9: a file `"a \nb\n"` with a single malformed edit
(so zero edits are applied) is stored as `"a\nb"` — the trailing
newline and the trailing space on the untouched first line are gone,
so the recorded content differs from the original. -/
theorem makeChangesFile_all_skipped_witness :
    makeChangesFile "a \nb\n" [⟨"c", EditType.update_outdated, "j", 0, 1, "Z"⟩] =
      joinNL ((splitlines "a \nb\n").map rstrip) ∧
    makeChangesFile "a \nb\n" [⟨"c", EditType.update_outdated, "j", 0, 1, "Z"⟩] = "a\nb" ∧
    "a\nb" ≠ "a \nb\n" :=
  ⟨makeChangesFile_all_skipped "a \nb\n"
      [⟨"c", EditType.update_outdated, "j", 0, 1, "Z"⟩]
      (by intro e he; simp at he; subst he; decide),
   by decide, by decide⟩



/-! ### Descending application of disjoint edits (C3) -/

/-- The invariant the descending sort establishes for the edit list
the loop actually processes: every edit's computed 0-indexed window
`[startIdx, endIdx)` is well-formed, lies below `bound`, and every
later edit's window lies at or below the current edit's start. -/
def windowChain (bound : Int) : List DocEdit → Bool
  | [] => true
  | e :: rest =>
    decide (0 ≤ startIdx e) && decide (startIdx e ≤ endIdx e) &&
      decide (endIdx e ≤ bound) && windowChain (startIdx e) rest

/-- Total number of lines inserted by a list of edits. -/
def insTotal : List DocEdit → Nat
  | [] => 0
  | e :: rest => (splitlines e.replacement_txt).length + insTotal rest

/-- Total number of lines deleted by a list of edits. -/
def delTotal : List DocEdit → Nat
  | [] => 0
  | e :: rest => (endIdx e - startIdx e).toNat + delTotal rest

/-- Lines inserted by the edits whose window ends at or below
(0-indexed) line `j`. -/
def insCountAt (j : Int) : List DocEdit → Nat
  | [] => 0
  | e :: rest =>
    (if endIdx e ≤ j then (splitlines e.replacement_txt).length else 0)
      + insCountAt j rest

/-- Lines deleted by the edits whose window ends at or below
(0-indexed) line `j`. -/
def delCountAt (j : Int) : List DocEdit → Nat
  | [] => 0
  | e :: rest =>
    (if endIdx e ≤ j then (endIdx e - startIdx e).toNat else 0)
      + delCountAt j rest

theorem windowChain_cons {b : Int} {e : DocEdit} {rest : List DocEdit} :
    windowChain b (e :: rest) = true ↔
      0 ≤ startIdx e ∧ startIdx e ≤ endIdx e ∧ endIdx e ≤ b ∧
        windowChain (startIdx e) rest = true := by
  simp [windowChain, Bool.and_eq_true, and_assoc]

theorem windowChain_mono {b b' : Int} (hbb : b ≤ b') :
    ∀ {L : List DocEdit}, windowChain b L = true → windowChain b' L = true := by
  intro L h
  cases L with
  | nil => rfl
  | cons e rest =>
    rcases windowChain_cons.mp h with ⟨h0, h1, h2, h3⟩
    exact windowChain_cons.mpr ⟨h0, h1, le_trans h2 hbb, h3⟩

theorem windowChain_all {L : List DocEdit} : ∀ {b : Int},
    windowChain b L = true →
    ∀ e ∈ L, 0 ≤ startIdx e ∧ startIdx e ≤ endIdx e ∧ endIdx e ≤ b := by
  induction L with
  | nil => intro b _ e he; cases he
  | cons x rest ih =>
    intro b h e he
    rcases windowChain_cons.mp h with ⟨h0, h1, h2, h3⟩
    rcases List.mem_cons.mp he with rfl | he
    · exact ⟨h0, h1, h2⟩
    · have := ih h3 e he
      exact ⟨this.1, this.2.1, by omega⟩

theorem delTotal_le {L : List DocEdit} : ∀ {b : Int}, 0 ≤ b →
    windowChain b L = true → (delTotal L : Int) ≤ b := by
  induction L with
  | nil => intro b hb _; simpa [delTotal] using hb
  | cons e rest ih =>
    intro b _ h
    rcases windowChain_cons.mp h with ⟨h0, h1, h2, h3⟩
    have := ih h0 h3
    simp only [delTotal]
    push_cast
    omega

theorem delCountAt_le_delTotal {j : Int} {L : List DocEdit} :
    delCountAt j L ≤ delTotal L := by
  induction L with
  | nil => simp [delCountAt, delTotal]
  | cons e rest ih =>
    simp only [delCountAt, delTotal]
    split <;> omega

theorem insCountAt_eq_total {j : Int} {L : List DocEdit}
    (h : ∀ e ∈ L, endIdx e ≤ j) : insCountAt j L = insTotal L := by
  induction L with
  | nil => rfl
  | cons e rest ih =>
    simp only [insCountAt, insTotal, if_pos (h e (by simp))]
    rw [ih fun x hx => h x (List.mem_cons_of_mem e hx)]

theorem delCountAt_eq_total {j : Int} {L : List DocEdit}
    (h : ∀ e ∈ L, endIdx e ≤ j) : delCountAt j L = delTotal L := by
  induction L with
  | nil => rfl
  | cons e rest ih =>
    simp only [delCountAt, delTotal, if_pos (h e (by simp))]
    rw [ih fun x hx => h x (List.mem_cons_of_mem e hx)]

theorem delCountAt_le {j : Int} (hj : 0 ≤ j) {L : List DocEdit} :
    ∀ {b : Int}, 0 ≤ b → windowChain b L = true →
    (delCountAt j L : Int) ≤ j := by
  induction L with
  | nil => intro b _ _; simpa [delCountAt] using hj
  | cons e rest ih =>
    intro b _ h
    rcases windowChain_cons.mp h with ⟨h0, h1, h2, h3⟩
    by_cases hc : endIdx e ≤ j
    · have hrest : (delCountAt j rest : Int) ≤ startIdx e := by
        calc (delCountAt j rest : Int) ≤ (delTotal rest : Int) := by
              exact_mod_cast delCountAt_le_delTotal
          _ ≤ startIdx e := delTotal_le h0 h3
      simp only [delCountAt, if_pos hc]
      push_cast
      omega
    · have := ih h0 h3
      simp only [delCountAt, if_neg hc]
      omega

theorem isValidEdit_iff {lines : List String} {e : DocEdit} :
    isValidEdit lines e = true ↔
      0 ≤ startIdx e ∧ startIdx e ≤ (lines.length : Int) ∧
        startIdx e ≤ endIdx e ∧ endIdx e ≤ (lines.length : Int) := by
  simp only [isValidEdit, Bool.not_eq_true', Bool.or_eq_false_iff,
    decide_eq_false_iff_not, not_lt]
  omega

theorem applyEdit_append (A B : List String) (e : DocEdit)
    (h0 : 0 ≤ startIdx e) (h1 : startIdx e ≤ endIdx e)
    (h2 : endIdx e ≤ (A.length : Int)) :
    applyEdit (A ++ B) e = applyEdit A e ++ B := by
  have hvA : isValidEdit A e = true := isValidEdit_iff.mpr ⟨h0, by omega, h1, h2⟩
  have hvAB : isValidEdit (A ++ B) e = true := by
    refine isValidEdit_iff.mpr ⟨h0, ?_, h1, ?_⟩ <;>
      simp only [List.length_append] <;> push_cast <;> omega
  have hsA : (startIdx e).toNat ≤ A.length := by omega
  have heA : (endIdx e).toNat ≤ A.length := by omega
  simp only [applyEdit, hvA, hvAB, if_true,
    List.take_append_of_le_length hsA, List.drop_append_of_le_length heA,
    List.append_assoc]

theorem foldl_applyEdit_append (B : List String) :
    ∀ (L : List DocEdit) (A : List String),
    windowChain (A.length : Int) L = true →
    List.foldl applyEdit (A ++ B) L = List.foldl applyEdit A L ++ B := by
  intro L
  induction L with
  | nil => intro A _; rfl
  | cons e rest ih =>
    intro A hchain
    rcases windowChain_cons.mp hchain with ⟨h0, h1, h2, h3⟩
    rw [List.foldl_cons, List.foldl_cons, applyEdit_append A B e h0 h1 h2]
    refine ih (applyEdit A e) (windowChain_mono ?_ h3)
    have hv : isValidEdit A e = true := isValidEdit_iff.mpr ⟨h0, by omega, h1, h2⟩
    simp only [applyEdit, hv, if_true, List.length_append, List.length_take,
      List.length_drop]
    push_cast
    omega

theorem length_foldl_applyEdit :
    ∀ (L : List DocEdit) (lines : List String),
    windowChain (lines.length : Int) L = true →
    (List.foldl applyEdit lines L).length + delTotal L =
      lines.length + insTotal L := by
  intro L
  induction L with
  | nil => intro lines _; simp [delTotal, insTotal]
  | cons e rest ih =>
    intro lines hchain
    rcases windowChain_cons.mp hchain with ⟨h0, h1, h2, h3⟩
    have hv : isValidEdit lines e = true := isValidEdit_iff.mpr ⟨h0, by omega, h1, h2⟩
    have hlen' : (applyEdit lines e).length + (endIdx e - startIdx e).toNat =
        lines.length + (splitlines e.replacement_txt).length := by
      simp only [applyEdit, hv, if_true, List.length_append, List.length_take,
        List.length_drop]
      omega
    have hchain' : windowChain ((applyEdit lines e).length : Int) rest = true := by
      refine windowChain_mono ?_ h3
      omega
    have := ih (applyEdit lines e) hchain'
    simp only [List.foldl_cons, delTotal, insTotal]
    omega



theorem endIdx_cases (e : DocEdit) :
    endIdx e = startIdx e ∨ endIdx e = e.end_line := by
  unfold endIdx
  split
  · exact Or.inl rfl
  · exact Or.inr rfl

theorem insCountAt_eq_sum (j : Int) (L : List DocEdit) :
    insCountAt j L =
      (L.map fun e =>
        if endIdx e ≤ j then (splitlines e.replacement_txt).length else 0).sum := by
  induction L with
  | nil => rfl
  | cons e rest ih => simp [insCountAt, ih]

theorem delCountAt_eq_sum (j : Int) (L : List DocEdit) :
    delCountAt j L =
      (L.map fun e =>
        if endIdx e ≤ j then (endIdx e - startIdx e).toNat else 0).sum := by
  induction L with
  | nil => rfl
  | cons e rest ih => simp [delCountAt, ih]

theorem insCountAt_perm {j : Int} {L L' : List DocEdit} (h : L.Perm L') :
    insCountAt j L = insCountAt j L' := by
  rw [insCountAt_eq_sum, insCountAt_eq_sum]
  exact (h.map _).sum_eq

theorem delCountAt_perm {j : Int} {L L' : List DocEdit} (h : L.Perm L') :
    delCountAt j L = delCountAt j L' := by
  rw [delCountAt_eq_sum, delCountAt_eq_sum]
  exact (h.map _).sum_eq

/-- After the descending application of a window chain, an original
line `j` lying outside every window survives, shifted by the inserted
minus deleted line counts of the edits below it. -/
theorem foldl_applyEdit_outside :
    ∀ (L : List DocEdit) (lines : List String),
    windowChain (lines.length : Int) L = true →
    ∀ j : Nat, j < lines.length →
    (∀ e ∈ L, (j : Int) < startIdx e ∨ endIdx e ≤ (j : Int)) →
    ∀ p : Nat, p + delCountAt (j : Int) L = j + insCountAt (j : Int) L →
    (List.foldl applyEdit lines L)[p]? = lines[j]? := by
  intro L
  induction L with
  | nil =>
    intro lines _ j _ _ p hp
    have hpj : p = j := by simpa [delCountAt, insCountAt] using hp
    rw [hpj]
    rfl
  | cons e rest ih =>
    intro lines hchain j hj hout p hp
    rcases windowChain_cons.mp hchain with ⟨h0, h1, h2, h3⟩
    have hv : isValidEdit lines e = true :=
      isValidEdit_iff.mpr ⟨h0, by omega, h1, h2⟩
    have happ : applyEdit lines e =
        lines.take (startIdx e).toNat ++
          (splitlines e.replacement_txt ++ lines.drop (endIdx e).toNat) := by
      simp [applyEdit, hv, List.append_assoc]
    have hAlen : (lines.take (startIdx e).toNat).length = (startIdx e).toNat := by
      simp only [List.length_take]
      omega
    have hAlenI : ((lines.take (startIdx e).toNat).length : Int) = startIdx e := by
      rw [hAlen]; omega
    have hchainA :
        windowChain ((lines.take (startIdx e).toNat).length : Int) rest = true := by
      rw [hAlenI]; exact h3
    rw [List.foldl_cons, happ,
      foldl_applyEdit_append (splitlines e.replacement_txt ++
        lines.drop (endIdx e).toNat) rest (lines.take (startIdx e).toNat) hchainA]
    rcases hout e (List.mem_cons_self e rest) with hjlt | hjge
    · -- the edit's window lies strictly above line j
      have hne : ¬ (endIdx e ≤ (j : Int)) := by omega
      have hjA : j < (lines.take (startIdx e).toNat).length := by
        rw [hAlen]; omega
      have houtrest : ∀ x ∈ rest, (j : Int) < startIdx x ∨ endIdx x ≤ (j : Int) :=
        fun x hx => hout x (List.mem_cons_of_mem e hx)
      have hp' : p + delCountAt (j : Int) rest = j + insCountAt (j : Int) rest := by
        simp only [delCountAt, insCountAt, if_neg hne] at hp
        omega
      have hIH := ih (lines.take (startIdx e).toNat) hchainA j hjA houtrest p hp'
      have hAj : (lines.take (startIdx e).toNat)[j]? = lines[j]? := by
        rw [List.getElem?_take]
        exact if_pos (by omega)
      have hplt : p < (List.foldl applyEdit (lines.take (startIdx e).toNat) rest).length := by
        by_contra hge'
        push_neg at hge'
        rw [List.getElem?_eq_none hge', List.getElem?_eq_getElem hjA] at hIH
        exact Option.noConfusion hIH
      rw [List.getElem?_append, if_pos hplt]
      exact hIH.trans hAj
    · -- the edit's window lies at or below line j
      have hallrest : ∀ x ∈ rest, endIdx x ≤ (j : Int) := by
        intro x hx
        have := (windowChain_all h3 x hx).2.2
        omega
      have hpe : p + ((endIdx e - startIdx e).toNat + delTotal rest) =
          j + ((splitlines e.replacement_txt).length + insTotal rest) := by
        simp only [delCountAt, insCountAt, if_pos hjge,
          delCountAt_eq_total hallrest, insCountAt_eq_total hallrest] at hp
        omega
      have hlenF := length_foldl_applyEdit rest (lines.take (startIdx e).toNat) hchainA
      have hFp : (List.foldl applyEdit (lines.take (startIdx e).toNat) rest).length ≤ p := by
        rw [hAlen] at hlenF
        omega
      rw [List.getElem?_append_right hFp, List.getElem?_append_right (by rw [hAlen] at hlenF; omega),
        List.getElem?_drop]
      have hixeq : (endIdx e).toNat +
          (p - (List.foldl applyEdit (lines.take (startIdx e).toNat) rest).length -
            (splitlines e.replacement_txt).length) = j := by
        rw [hAlen] at hlenF
        omega
      rw [hixeq]

theorem chain_of_pairwise :
    ∀ (L : List DocEdit) (N : Int),
    (∀ e ∈ L, 0 ≤ startIdx e ∧ startIdx e ≤ endIdx e ∧ endIdx e ≤ N) →
    L.Pairwise (fun a b => endIdx b ≤ startIdx a) →
    windowChain N L = true := by
  intro L
  induction L with
  | nil => intro N _ _; rfl
  | cons e rest ih =>
    intro N hv hp
    rcases List.pairwise_cons.mp hp with ⟨hhead, htail⟩
    have he := hv e (List.mem_cons_self e rest)
    refine windowChain_cons.mpr ⟨he.1, he.2.1, he.2.2, ?_⟩
    refine ih (startIdx e) ?_ htail
    intro x hx
    have := hv x (List.mem_cons_of_mem e hx)
    exact ⟨this.1, this.2.1, hhead x hx⟩

/-- Descending sort order plus pairwise-disjoint 1-indexed ranges give
the window ordering the descending application relies on. -/
theorem sorted_pairwise_endIdx (edits : List DocEdit)
    (hv : ∀ e ∈ edits, 1 ≤ e.start_line ∧ e.start_line ≤ e.end_line)
    (hd : edits.Pairwise fun a b =>
      a.end_line < b.start_line ∨ b.end_line < a.start_line) :
    (sortEditsDesc edits).Pairwise (fun a b => endIdx b ≤ startIdx a) := by
  have hsorted := pairwise_sortEditsDesc edits
  have hd' : (sortEditsDesc edits).Pairwise
      (fun a b => a.end_line < b.start_line ∨ b.end_line < a.start_line) :=
    (List.Perm.pairwise_iff (fun h => h.symm) (sortEditsDesc_perm edits)).mpr hd
  have hcomb := hsorted.and hd'
  rw [List.pairwise_iff_forall_sublist] at hcomb ⊢
  intro a b hsub
  have hab := hcomb hsub
  have ha := hv a (mem_sortEditsDesc.mp (hsub.mem (by simp)))
  have hb := hv b (mem_sortEditsDesc.mp (hsub.mem (by simp)))
  rcases endIdx_cases b with hbe | hbe <;> rw [hbe] <;> unfold startIdx <;> omega


/-- C3: for a set of edits to one file whose 1-indexed inclusive line
ranges lie within the file and are pairwise non-overlapping (adjacent
ranges allowed), the applier — which sorts the edits descending by
`start_line` and applies them in that order (`applyEdits`) — leaves
every line outside all edited ranges untouched: original line `j`
(0-indexed) reappears verbatim at the position shifted by the lines
inserted minus deleted below it. -/
theorem applyEdits_outside_untouched (lines : List String) (edits : List DocEdit)
    (hv : ∀ e ∈ edits, 1 ≤ e.start_line ∧ e.start_line ≤ e.end_line ∧
      e.end_line ≤ (lines.length : Int))
    (hd : edits.Pairwise fun a b =>
      a.end_line < b.start_line ∨ b.end_line < a.start_line)
    (j : Nat) (hj : j < lines.length)
    (hout : ∀ e ∈ edits, (j : Int) < startIdx e ∨ endIdx e ≤ (j : Int))
    (p : Nat) (hp : p + delCountAt (j : Int) edits = j + insCountAt (j : Int) edits) :
    delCountAt (j : Int) edits ≤ j ∧ (applyEdits lines edits)[p]? = lines[j]? := by
  have hvalid : ∀ e ∈ sortEditsDesc edits,
      0 ≤ startIdx e ∧ startIdx e ≤ endIdx e ∧ endIdx e ≤ (lines.length : Int) := by
    intro e he
    obtain ⟨h1, h2, h3⟩ := hv e (mem_sortEditsDesc.mp he)
    refine ⟨?_, ?_, ?_⟩ <;> rcases endIdx_cases e with hc | hc <;>
      simp only [hc, startIdx] <;> omega
  have hchain : windowChain (lines.length : Int) (sortEditsDesc edits) = true :=
    chain_of_pairwise _ _ hvalid
      (sorted_pairwise_endIdx edits (fun e he => ⟨(hv e he).1, (hv e he).2.1⟩) hd)
  have hdel : delCountAt (j : Int) edits = delCountAt (j : Int) (sortEditsDesc edits) :=
    delCountAt_perm (sortEditsDesc_perm edits).symm
  have hins : insCountAt (j : Int) edits = insCountAt (j : Int) (sortEditsDesc edits) :=
    insCountAt_perm (sortEditsDesc_perm edits).symm
  constructor
  · have hle := @delCountAt_le (j : Int) (by omega) (sortEditsDesc edits)
      (lines.length : Int) (by omega) hchain
    rw [hdel]
    omega
  · have hout' : ∀ e ∈ sortEditsDesc edits,
        (j : Int) < startIdx e ∨ endIdx e ≤ (j : Int) :=
      fun e he => hout e (mem_sortEditsDesc.mp he)
    have hp' : p + delCountAt (j : Int) (sortEditsDesc edits) =
        j + insCountAt (j : Int) (sortEditsDesc edits) := by
      rw [← hdel, ← hins]; exact hp
    exact foldl_applyEdit_outside (sortEditsDesc edits) lines hchain j hj hout' p hp'

/-- Witness for C3: two non-overlapping edits (a replacement of lines
1-2 and a deletion of line 4) on a 5-line file; the untouched line 3
(0-indexed 2) survives at its shifted position, and the full result is
as expected. -/
theorem applyEdits_outside_untouched_witness :
    (applyEdits ["a", "b", "c", "d", "e"]
        [⟨"c1", EditType.update_outdated, "j1", 1, 2, "X"⟩,
         ⟨"c2", EditType.delete_redundant, "j2", 4, 4, ""⟩])[1]? =
      (["a", "b", "c", "d", "e"] : List String)[2]? ∧
    applyEdits ["a", "b", "c", "d", "e"]
        [⟨"c1", EditType.update_outdated, "j1", 1, 2, "X"⟩,
         ⟨"c2", EditType.delete_redundant, "j2", 4, 4, ""⟩] = ["X", "c", "e"] :=
  ⟨(applyEdits_outside_untouched ["a", "b", "c", "d", "e"]
      [⟨"c1", EditType.update_outdated, "j1", 1, 2, "X"⟩,
       ⟨"c2", EditType.delete_redundant, "j2", 4, 4, ""⟩]
      (by intro e he; fin_cases he <;> decide)
      (by decide) 2 (by decide)
      (by intro e he; fin_cases he <;> decide)
      1 (by decide)).2,
   by decide⟩

/-! ### The document catalog (src/docweaver/catalog.py) -/

/-- The `DOCTYPES` literal of catalog.py line 13. -/
inductive DOCTYPES where
  | concept
  | how_to
  | reference
  | tutorial
deriving DecidableEq, Repr

/-- The serialized form of a doctype (the literal strings of the
`Literal` type). -/
def doctypeStr : DOCTYPES → String
  | .concept => "concept"
  | .how_to => "how-to"
  | .reference => "reference"
  | .tutorial => "tutorial"

/-- Validation of a doctype string, as pydantic checks the `Literal`. -/
def strToDoctype (s : String) : Option DOCTYPES :=
  if s = "concept" then some .concept
  else if s = "how-to" then some .how_to
  else if s = "reference" then some .reference
  else if s = "tutorial" then some .tutorial
  else none

/-- The `DocMetadata` pydantic model of catalog.py lines 16-30. -/
structure DocMetadata where
  path : String
  title : Option String
  topics : Option (List String)
  doctype : Option DOCTYPES
  summary : Option String
  hash : Option String
deriving DecidableEq, Repr

/-- The `DocCatalog` pydantic model of catalog.py lines 33-39: a
dictionary of document metadata indexed by path, embedded as an
insertion-ordered association list (Python dicts preserve insertion
order and never hold a key twice). -/
structure DocCatalog where
  docs : List (String × DocMetadata)
deriving DecidableEq, Repr

/-- Lookup in the `docs` dictionary. -/
def findEntry : List (String × DocMetadata) → String → Option DocMetadata
  | [], _ => none
  | (k, v) :: rest, key => if k = key then some v else findEntry rest key

/-- `catalog.docs[key] = value`: replace the value in place if the key
is present (keeping dict order), otherwise append. -/
def insertEntry : List (String × DocMetadata) → String → DocMetadata →
    List (String × DocMetadata)
  | [], key, value => [(key, value)]
  | (k, v) :: rest, key, value =>
    if k = key then (key, value) :: rest else (k, v) :: insertEntry rest key value

/-- The JSON documents exchanged by `model_dump_json` /
`model_validate_json` for the catalog schema (strings, arrays,
objects, null; no numbers occur).  The byte-level JSON printing and
parsing is done by pydantic's JSON codec and is not re-modelled;
`save`/`load` below work with this parsed form. -/
inductive Json where
  | null
  | str (s : String)
  | arr (elts : List Json)
  | obj (fields : List (String × Json))

/-- Key lookup in a JSON object. -/
def getField : List (String × Json) → String → Option Json
  | [], _ => none
  | (k, v) :: rest, key => if k = key then some v else getField rest key

/-- `model_dump_json` for one `DocMetadata`: every field is emitted,
optional fields absent in the model as `null`. -/
def encodeMeta (m : DocMetadata) : Json :=
  .obj [("path", .str m.path),
        ("title", match m.title with | none => .null | some s => .str s),
        ("topics", match m.topics with
          | none => .null
          | some ts => .arr (ts.map Json.str)),
        ("doctype", match m.doctype with
          | none => .null
          | some d => .str (doctypeStr d)),
        ("summary", match m.summary with | none => .null | some s => .str s),
        ("hash", match m.hash with | none => .null | some s => .str s)]

/-- `model_dump_json` for the whole catalog: one `docs` object whose
keys are the paths. -/
def encodeCatalog (c : DocCatalog) : Json :=
  .obj [("docs", .obj (c.docs.map fun kv => (kv.1, encodeMeta kv.2)))]

/-- Validation of an `Optional[str]` field: absent or `null` is
`None`, a string is itself, anything else fails. -/
def decOptStr : Option Json → Option (Option String)
  | none => some none
  | some .null => some none
  | some (.str s) => some (some s)
  | some _ => none

/-- Validation of a JSON array as `list[str]`. -/
def decStrList : List Json → Option (List String)
  | [] => some []
  | .str s :: rest =>
    match decStrList rest with
    | some ss => some (s :: ss)
    | none => none
  | _ :: _ => none

/-- Validation of the `Optional[list[str]]` topics field. -/
def decTopics : Option Json → Option (Option (List String))
  | none => some none
  | some .null => some none
  | some (.arr xs) => (decStrList xs).map some
  | some _ => none

/-- Validation of the `Optional[DOCTYPES]` doctype field. -/
def decDoctype : Option Json → Option (Option DOCTYPES)
  | none => some none
  | some .null => some none
  | some (.str s) => (strToDoctype s).map some
  | some _ => none

/-- `model_validate` for one `DocMetadata`: `path` is required, the
rest optional. -/
def decodeMeta : Json → Option DocMetadata
  | .obj fields =>
    match getField fields "path" with
    | some (.str p) =>
      match decOptStr (getField fields "title"),
            decTopics (getField fields "topics"),
            decDoctype (getField fields "doctype"),
            decOptStr (getField fields "summary"),
            decOptStr (getField fields "hash") with
      | some t, some tp, some dt, some sm, some h =>
        some ⟨p, t, tp, dt, sm, h⟩
      | _, _, _, _, _ => none
    | _ => none
  | _ => none

/-- Validation of the entries of the `docs` object, in order. -/
def decodeEntries : List (String × Json) → Option (List (String × DocMetadata))
  | [] => some []
  | (k, v) :: rest =>
    match decodeMeta v, decodeEntries rest with
    | some m, some ms => some ((k, m) :: ms)
    | _, _ => none

/-- `model_validate` for `DocCatalog`: a missing `docs` field takes
the `default_factory` empty dict. -/
def decodeCatalog : Json → Option DocCatalog
  | .obj fields =>
    match getField fields "docs" with
    | none => some ⟨[]⟩
    | some (.obj entries) => (decodeEntries entries).map DocCatalog.mk
    | some _ => none
  | _ => none

/-- `DocCatalog.save` (catalog.py lines 48-52): the snapshot written
to the file is the serialized catalog. -/
def DocCatalog.save (c : DocCatalog) : Json :=
  encodeCatalog c

/-- `DocCatalog.load` (catalog.py lines 41-46): an absent file yields
an empty catalog, otherwise the snapshot is validated. -/
def DocCatalog.load (file : Option Json) : Option DocCatalog :=
  match file with
  | none => some ⟨[]⟩
  | some j => decodeCatalog j

theorem strToDoctype_doctypeStr (d : DOCTYPES) :
    strToDoctype (doctypeStr d) = some d := by
  cases d <;> rfl

theorem decStrList_map_str (ts : List String) :
    decStrList (ts.map Json.str) = some ts := by
  induction ts with
  | nil => rfl
  | cons t ts ih => simp [decStrList, ih]

theorem decodeMeta_encodeMeta (m : DocMetadata) :
    decodeMeta (encodeMeta m) = some m := by
  obtain ⟨p, t, tp, dt, sm, h⟩ := m
  cases t <;> cases tp <;> cases dt <;> cases sm <;> cases h <;>
    simp [decodeMeta, encodeMeta, getField, decOptStr, decTopics, decDoctype,
      decStrList_map_str, strToDoctype_doctypeStr]

theorem decodeEntries_encode (docs : List (String × DocMetadata)) :
    decodeEntries (docs.map fun kv => (kv.1, encodeMeta kv.2)) = some docs := by
  induction docs with
  | nil => rfl
  | cons kv rest ih => simp [decodeEntries, decodeMeta_encodeMeta, ih]

/-- C6: saving a catalog and loading the saved snapshot back
reproduces an identical mapping of paths to metadata (hashes
included). -/
theorem catalog_save_load_roundtrip (c : DocCatalog) :
    DocCatalog.load (some (DocCatalog.save c)) = some c := by
  simp [DocCatalog.load, DocCatalog.save, encodeCatalog, decodeCatalog,
    getField, decodeEntries_encode]

/-! ### File-tree scanning and catalog maintenance -/

/-- A file on disk under the documentation root: its path relative to
`base_path` (in `as_posix` form, so its last `/`-component is the file
name) and its text content.  The `rglob` traversal order is the list
order. -/
structure SrcFile where
  relPath : String
  content : String
deriving DecidableEq, Repr

/-- The file name: the part of the relative path after the last `/`. -/
def fileName (p : String) : String :=
  String.mk ((p.data.reverse.takeWhile (fun c => c ≠ '/')).reverse)

/-- Substring test on character lists. -/
def hasSubstr : List Char → List Char → Bool
  | needle, [] => needle.isEmpty
  | needle, c :: rest => needle.isPrefixOf (c :: rest) || hasSubstr needle rest

/-- Eligibility in the scans of catalog.py lines 74 and 93-97:
`doc_root.rglob("*.md*")` keeps files whose name contains `.md`
(markdown-family extensions), and names starting with `_` are
excluded. -/
def isEligibleDoc (f : SrcFile) : Bool :=
  hasSubstr ".md".data (fileName f.relPath).data &&
    !("_".data.isPrefixOf (fileName f.relPath).data)

/-- `get_docs_to_update` (catalog.py lines 70-86): eligible files that
are absent from the catalog or whose stored hash differs from the
freshly computed content hash.  `hashFn` abstracts the SHA-256 hex
digest of the file's bytes; only equality of digests is ever used. -/
def get_docs_to_update (tree : List SrcFile) (catalog : DocCatalog)
    (hashFn : String → String) : List SrcFile :=
  (tree.filter isEligibleDoc).filter fun f =>
    match findEntry catalog.docs f.relPath with
    | none => true
    | some m => decide (m.hash ≠ some (hashFn f.content))

/-- `get_docs_to_remove` (catalog.py lines 89-103): catalog keys with
no corresponding file in the current scan.  (The source iterates a
Python set of the keys; only membership of the result is specified,
so key order is kept here.) -/
def get_docs_to_remove (tree : List SrcFile) (catalog : DocCatalog) : List String :=
  (catalog.docs.map Prod.fst).filter fun p =>
    decide (p ∉ (tree.filter isEligibleDoc).map SrcFile.relPath)

/-- The metadata-updating loop of `update_catalog` (pipeline.py lines
977-994): for each document to update, `generate_metadata` (an AI
call, abstracted as `gen`) produces metadata whose `path` and `hash`
fields are then overwritten with the relative path and the content
hash (catalog.py lines 106-121), and the entry is stored under
`metadata.path`. -/
def updateCatalogLoop (catalog : DocCatalog) (docs : List SrcFile)
    (gen : SrcFile → DocMetadata) (hashFn : String → String) : DocCatalog :=
  docs.foldl
    (fun c f =>
      ⟨insertEntry c.docs f.relPath
        { gen f with path := f.relPath, hash := some (hashFn f.content) }⟩)
    catalog

theorem findEntry_insertEntry_self (docs : List (String × DocMetadata))
    (k : String) (v : DocMetadata) :
    findEntry (insertEntry docs k v) k = some v := by
  induction docs with
  | nil => simp [insertEntry, findEntry]
  | cons kv rest ih =>
    obtain ⟨a, b⟩ := kv
    by_cases h : a = k <;> simp [insertEntry, findEntry, h, ih]

theorem findEntry_insertEntry_ne (docs : List (String × DocMetadata))
    (k : String) (v : DocMetadata) (key : String) (h : key ≠ k) :
    findEntry (insertEntry docs k v) key = findEntry docs key := by
  induction docs with
  | nil =>
    simp only [insertEntry, findEntry]
    rw [if_neg fun hk => h hk.symm]
  | cons kv rest ih =>
    obtain ⟨a, b⟩ := kv
    by_cases ha : a = k
    · subst ha
      simp only [insertEntry, if_pos rfl, findEntry]
      rw [if_neg fun hk => h hk.symm, if_neg fun hk => h hk.symm]
    · simp only [insertEntry, if_neg ha, findEntry]
      by_cases hak : a = key
      · simp [hak]
      · simp [hak, ih]

theorem findEntry_updateLoop_not_mem (gen : SrcFile → DocMetadata)
    (hashFn : String → String) (p : String) :
    ∀ (docs : List SrcFile) (c : DocCatalog),
    p ∉ docs.map SrcFile.relPath →
    findEntry (updateCatalogLoop c docs gen hashFn).docs p = findEntry c.docs p := by
  intro docs
  induction docs with
  | nil => intro c _; rfl
  | cons g rest ih =>
    intro c hnm
    have hpg : p ≠ g.relPath := fun hpe => hnm (by simp [hpe])
    have hrest : p ∉ rest.map SrcFile.relPath := fun hin => hnm (by simp [hin])
    show findEntry (updateCatalogLoop
      ⟨insertEntry c.docs g.relPath
        { gen g with path := g.relPath, hash := some (hashFn g.content) }⟩
      rest gen hashFn).docs p = findEntry c.docs p
    rw [ih _ hrest]
    exact findEntry_insertEntry_ne _ _ _ _ hpg

theorem findEntry_updateLoop_mem (gen : SrcFile → DocMetadata)
    (hashFn : String → String) (f : SrcFile) :
    ∀ (docs : List SrcFile) (c : DocCatalog),
    (docs.map SrcFile.relPath).Nodup → f ∈ docs →
    findEntry (updateCatalogLoop c docs gen hashFn).docs f.relPath =
      some { gen f with path := f.relPath, hash := some (hashFn f.content) } := by
  intro docs
  induction docs with
  | nil => intro c _ hf; cases hf
  | cons g rest ih =>
    intro c hnd hf
    rw [List.map_cons, List.nodup_cons] at hnd
    rcases List.mem_cons.mp hf with rfl | hf
    · show findEntry (updateCatalogLoop
        ⟨insertEntry c.docs f.relPath
          { gen f with path := f.relPath, hash := some (hashFn f.content) }⟩
        rest gen hashFn).docs f.relPath = _
      rw [findEntry_updateLoop_not_mem gen hashFn f.relPath rest _ hnd.1]
      exact findEntry_insertEntry_self _ _ _
    · exact ih _ hnd.2 hf

/-- C7: an eligible file under the root is returned by
`get_docs_to_update` exactly once whenever it is absent from the
catalog or its stored hash differs from the freshly computed content
hash; and once the catalog-updating loop has stored the computed
hashes, a second call with the file unchanged no longer returns it. -/
theorem docs_to_update_once (tree : List SrcFile) (catalog : DocCatalog)
    (hashFn : String → String) (gen : SrcFile → DocMetadata) (f : SrcFile)
    (hnd : (tree.map SrcFile.relPath).Nodup)
    (hf : f ∈ tree) (he : isEligibleDoc f = true)
    (hch : ∀ m, findEntry catalog.docs f.relPath = some m →
      m.hash ≠ some (hashFn f.content)) :
    (get_docs_to_update tree catalog hashFn).countP
        (fun g => g.relPath == f.relPath) = 1 ∧
    f.relPath ∉ (get_docs_to_update tree
        (updateCatalogLoop catalog (get_docs_to_update tree catalog hashFn) gen hashFn)
        hashFn).map SrcFile.relPath := by
  have hpred : (match findEntry catalog.docs f.relPath with
      | none => true
      | some m => decide (m.hash ≠ some (hashFn f.content))) = true := by
    cases hfe : findEntry catalog.docs f.relPath with
    | none => rfl
    | some m => exact decide_eq_true (hch m hfe)
  have hfmem : f ∈ get_docs_to_update tree catalog hashFn :=
    List.mem_filter.mpr ⟨List.mem_filter.mpr ⟨hf, he⟩, hpred⟩
  have hsub : (get_docs_to_update tree catalog hashFn).Sublist tree :=
    (List.filter_sublist _).trans (List.filter_sublist _)
  constructor
  · have hle := hsub.countP_le (fun g => g.relPath == f.relPath)
    have htree : tree.countP (fun g => g.relPath == f.relPath) = 1 := by
      have h1 : (tree.map SrcFile.relPath).countP (fun s => s == f.relPath) =
          tree.countP (fun g => g.relPath == f.relPath) :=
        List.countP_map _ _ _
      have h3 : (tree.map SrcFile.relPath).count f.relPath = 1 :=
        List.count_eq_one_of_mem hnd (List.mem_map_of_mem SrcFile.relPath hf)
      rw [← h1]
      exact h3
    have hge : 0 < (get_docs_to_update tree catalog hashFn).countP
        (fun g => g.relPath == f.relPath) :=
      List.countP_pos_iff.mpr ⟨f, hfmem, by simp⟩
    omega
  · intro hmem
    rcases List.mem_map.mp hmem with ⟨g, hg, hgeq⟩
    have hgt : g ∈ tree := (List.mem_filter.mp (List.mem_filter.mp hg).1).1
    have hgf : g = f := List.inj_on_of_nodup_map hnd hgt hf hgeq
    subst hgf
    have hnd2 : ((get_docs_to_update tree catalog hashFn).map SrcFile.relPath).Nodup :=
      List.Nodup.sublist (hsub.map SrcFile.relPath) hnd
    have hfind := findEntry_updateLoop_mem gen hashFn g
      (get_docs_to_update tree catalog hashFn) catalog hnd2 hfmem
    have hp2 := (List.mem_filter.mp hg).2
    rw [hfind] at hp2
    simp at hp2

/-- C8: `get_docs_to_remove` returns a path if and only if it is a
catalog key and no eligible file with that relative path exists in
the current file-tree scan. -/
theorem docs_to_remove_iff (tree : List SrcFile) (catalog : DocCatalog) (p : String) :
    p ∈ get_docs_to_remove tree catalog ↔
      p ∈ catalog.docs.map Prod.fst ∧
        p ∉ (tree.filter isEligibleDoc).map SrcFile.relPath := by
  simp [get_docs_to_remove, List.mem_filter]

/-! ### The reference scanner `parse_doc_refs`
(src/docweaver/agents.py, lines 217-255) -/

/-- The `WeaviateDoc` model of agents.py lines 211-214. -/
inductive WeaviateDoc where
  | mk (path : String) (doc_body : String) (referenced_docs : List WeaviateDoc)

def WeaviateDoc.path : WeaviateDoc → String
  | .mk p _ _ => p

def WeaviateDoc.doc_body : WeaviateDoc → String
  | .mk _ b _ => b

def WeaviateDoc.referenced_docs : WeaviateDoc → List WeaviateDoc
  | .mk _ _ r => r

/-- Read-only filesystem view: path to text content.  `read_text`
succeeds exactly on the listed paths (`exists()` is `isSome`). -/
def fsRead : List (String × String) → String → Option String
  | [], _ => none
  | (p, c) :: rest, key => if p = key then some c else fsRead rest key

/-- `\w` of the import regex (the repository's import names are ASCII
identifiers). -/
def isPyWordChar (c : Char) : Bool :=
  c.isAlphanum || c = '_'

def quoteD : Char := Char.ofNat 34

def quoteS : Char := Char.ofNat 39

def isQuoteChar (c : Char) : Bool :=
  c = quoteD || c = quoteS

/-- Consume an exact literal. -/
def dropLit : List Char → List Char → Option (List Char)
  | [], cs => some cs
  | _ :: _, [] => none
  | l :: ls, c :: cs => if c = l then dropLit ls cs else none

/-- Consume `\s+` (one or more whitespace characters, maximal munch —
the regex component that follows each `\s+` here never starts with
whitespace, so the greedy match never backtracks). -/
def dropWs1 (cs : List Char) : Option (List Char) :=
  let n := (cs.takeWhile pyWs).length
  if n = 0 then none else some (cs.drop n)

/-- Consume `\w+` (maximal munch; the following component is `\s+`,
disjoint from `\w`, so greediness never backtracks). -/
def dropWord1 (cs : List Char) : Option (List Char) :=
  let n := (cs.takeWhile isPyWordChar).length
  if n = 0 then none else some (cs.drop n)

/-- Whether a quote-free character run matches the capture
`[^"\x27]+\.(?:mdx?|py)` in full: it ends in `.md`, `.mdx` or `.py`
with at least one character before the dot. -/
def extOk (t : List Char) : Bool :=
  (".md".data.isSuffixOf t && decide (4 ≤ t.length)) ||
    (".mdx".data.isSuffixOf t && decide (5 ≤ t.length)) ||
    (".py".data.isSuffixOf t && decide (4 ≤ t.length))

/-- Attempt the import regex of agents.py line 229 at the head of the
input:
`import\s+\w+\s+from\s+["\x27](?:!!raw-loader!)?([^"\x27]+\.(?:mdx?|py))["\x27]`.
Since the capture class excludes both quote characters, the capture
must extend to the quote that ends the quote-free run; the optional
`!!raw-loader!` marker is tried first and left out of the capture,
falling back to the whole run when the remainder does not match, as
the regex engine backtracks.  Returns the capture and the input after
the full match. -/
def tryMatchAt (cs : List Char) : Option (String × List Char) := do
  let r1 ← dropLit "import".data cs
  let r2 ← dropWs1 r1
  let r3 ← dropWord1 r2
  let r4 ← dropWs1 r3
  let r5 ← dropLit "from".data r4
  let r6 ← dropWs1 r5
  match r6 with
  | [] => none
  | q :: r7 =>
    if isQuoteChar q then
      let t := r7.takeWhile (fun c => !(isQuoteChar c))
      match r7.drop t.length with
      | [] => none
      | q2 :: r8 =>
        if isQuoteChar q2 then
          if "!!raw-loader!".data.isPrefixOf t && extOk (t.drop 13) then
            some (String.mk (t.drop 13), r8)
          else if extOk t then some (String.mk t, r8)
          else none
        else none
    else none

/-- `re.findall` driver: try the pattern at each position, emitting
each match's capture and resuming after the full match.  The fuel is
the remaining length; every step (match or single-step advance)
consumes at least one character, so it never runs out. -/
def scanImportsAux : Nat → List Char → List String
  | 0, _ => []
  | _ + 1, [] => []
  | fuel + 1, c :: rest =>
    match tryMatchAt (c :: rest) with
    | some (cap, caft) => cap :: scanImportsAux fuel caft
    | none => scanImportsAux fuel rest

/-- `re.findall(import_pattern, content)` (agents.py line 230). -/
def importMatches (s : String) : List String :=
  scanImportsAux s.data.length s.data

/-- `code_extensions_list = ["py"]` (agents.py line 225). -/
def code_extensions_list : List String := ["py"]

/-- `match.lstrip("/")`. -/
def lstripSlashes (s : String) : String :=
  String.mk (s.data.dropWhile (fun c => c = '/'))

/-- Resolution of a captured import target (agents.py lines 234-237):
both the root-relative and the relative form end up joined under the
`docs` root. -/
def resolveImportPath (m : String) : String :=
  if "/".data.isPrefixOf m.data then "docs/" ++ lstripSlashes m
  else "docs/" ++ m

/-- `os.path.splitext(...)[1]` on the file name: the suffix from the
last dot, unless every character before that dot is itself a dot (then
there is no extension). -/
def extOf (p : String) : String :=
  let base := (fileName p).data
  let extRevLen := (base.reverse.takeWhile (fun c => c ≠ '.')).length
  if extRevLen = base.length then ""
  else
    let idx := base.length - extRevLen - 1
    if (base.take idx).all (fun c => c = '.') then ""
    else String.mk (base.drop idx)

/-- The body stored for a resolved reference (agents.py lines 239-247):
markdown (or anything when `include_code_body`) is inlined; otherwise a
placeholder.  Note the source compares the extension *with* its dot
against `["py"]`, so the code placeholder branch never fires. -/
def refBody (include_code_body : Bool) (importPath refContent : String) : String :=
  let ext := extOf importPath
  if hasSubstr "md".data ext.data || include_code_body then refContent
  else if ext ∈ code_extensions_list then "Body of code not included for brevity."
  else "Body not included for brevity."

/-- One captured match of the loop of agents.py lines 233-252: resolve
the path, keep it only if the file exists. -/
def resolveRef (fs : List (String × String)) (include_code_body : Bool)
    (m : String) : Option WeaviateDoc :=
  match fsRead fs (resolveImportPath m) with
  | none => none
  | some refContent =>
    some (.mk (resolveImportPath m)
      (refBody include_code_body (resolveImportPath m) refContent) [])

/-- `parse_doc_refs` (agents.py lines 217-255): the document plus one
`WeaviateDoc` per import match whose resolved target exists. -/
def parse_doc_refs (fs : List (String × String)) (file_path : String)
    (include_code_body : Bool) : WeaviateDoc :=
  match fsRead fs file_path with
  | none => .mk file_path "" []
  | some content =>
    .mk file_path content
      ((importMatches content).filterMap (resolveRef fs include_code_body))

/-- C5 counterexample: a file whose content imports the same target
`a.md` twice yields two `referenced_docs` entries for the resolved
path `docs/a.md` — `parse_doc_refs` keeps no memo of resolved paths,
so "at most one entry per path" fails. -/
theorem parse_doc_refs_duplicate_counterexample :
    ¬ ((((parse_doc_refs
        [("f.mdx", "import A from \"a.md\"\nimport B from \"a.md\"\n"),
          ("docs/a.md", "hello")] "f.mdx" true).referenced_docs).map
            WeaviateDoc.path).countP (fun p => decide (p = "docs/a.md")) ≤ 1) := by
  decide

theorem filterMap_resolveRef_paths (fs : List (String × String))
    (icb : Bool) (ms : List String) :
    (ms.filterMap (resolveRef fs icb)).map WeaviateDoc.path =
      (ms.map resolveImportPath).filter (fun p => (fsRead fs p).isSome) := by
  induction ms with
  | nil => rfl
  | cons m ms ih =>
    simp only [List.filterMap_cons, List.map_cons, List.filter_cons]
    cases hr : fsRead fs (resolveImportPath m) with
    | none => simp [resolveRef, hr, ih]
    | some rc => simp [resolveRef, hr, ih, WeaviateDoc.path]

/-- C5 amended: within one `parse_doc_refs` call the resolved paths of
`referenced_docs` are exactly the resolved targets of the import
matches that exist on disk, *one entry per match*: a path imported
twice is revisited and listed twice (there is no path-keyed memo). -/
theorem parse_doc_refs_entries_per_match (fs : List (String × String))
    (file_path : String) (icb : Bool) (content : String)
    (hc : fsRead fs file_path = some content) :
    (parse_doc_refs fs file_path icb).referenced_docs.map WeaviateDoc.path =
      ((importMatches content).map resolveImportPath).filter
        (fun p => (fsRead fs p).isSome) := by
  unfold parse_doc_refs
  rw [hc]
  exact filterMap_resolveRef_paths fs icb (importMatches content)

/-- Witness for the amended C5 theorem: one existing target and one
missing target. -/
theorem parse_doc_refs_entries_per_match_witness :
    fsRead [("g.mdx", "import X from \"b.md\"\nimport Y from \"missing.md\""),
        ("docs/b.md", "B")] "g.mdx" =
      some "import X from \"b.md\"\nimport Y from \"missing.md\"" ∧
    (parse_doc_refs [("g.mdx", "import X from \"b.md\"\nimport Y from \"missing.md\""),
        ("docs/b.md", "B")] "g.mdx" true).referenced_docs.map WeaviateDoc.path =
      ["docs/b.md"] :=
  ⟨by decide,
    (parse_doc_refs_entries_per_match
      [("g.mdx", "import X from \"b.md\"\nimport Y from \"missing.md\""),
        ("docs/b.md", "B")] "g.mdx" true
      "import X from \"b.md\"\nimport Y from \"missing.md\"" (by decide)).trans
      (by decide)⟩

/-- Witness for C7: a single changed file (stored hash `"old"`,
current digest `"new"` under an abstract digest function) is returned
exactly once, and no longer returned after the update loop stores the
fresh digest. -/
theorem docs_to_update_once_witness :
    (get_docs_to_update [⟨"docs/x.md", "new"⟩]
        ⟨[("docs/x.md", ⟨"docs/x.md", none, none, none, none, some "old"⟩)]⟩
        (fun s => s)).countP
        (fun g => g.relPath == ("docs/x.md" : String)) = 1 ∧
    ("docs/x.md" : String) ∉ (get_docs_to_update [⟨"docs/x.md", "new"⟩]
        (updateCatalogLoop
          ⟨[("docs/x.md", ⟨"docs/x.md", none, none, none, none, some "old"⟩)]⟩
          (get_docs_to_update [⟨"docs/x.md", "new"⟩]
            ⟨[("docs/x.md", ⟨"docs/x.md", none, none, none, none, some "old"⟩)]⟩
            (fun s => s))
          (fun _ => ⟨"", none, none, none, none, none⟩) (fun s => s))
        (fun s => s)).map SrcFile.relPath :=
  docs_to_update_once [⟨"docs/x.md", "new"⟩]
    ⟨[("docs/x.md", ⟨"docs/x.md", none, none, none, none, some "old"⟩)]⟩
    (fun s => s) (fun _ => ⟨"", none, none, none, none, none⟩)
    ⟨"docs/x.md", "new"⟩ (by decide) (by decide) (by decide)
    (by
      intro m hm
      have hx : findEntry
          [("docs/x.md", ⟨"docs/x.md", none, none, none, none, some "old"⟩)]
          "docs/x.md" =
          some ⟨"docs/x.md", none, none, none, none, some "old"⟩ := rfl
      rw [hx] at hm
      obtain rfl := Option.some.inj hm
      decide)

end DocWeaver
